import Mathlib

/-!
Verification development for the musx repository.

Part 1 embeds the `Mark` enumeration of `src/musx/mxml/mark.py` directly
from the source.

Part 2 models the cooperative, time-keyed process scheduler, the Timeline
(Score) and the Process contract described in the specification.  The
scheduler, timeline and process core of the repository is not present under
`src/` (only demo callers such as `demos/continuum.py` and
`demos/gestures.py` are), so those definitions are modelled from the
specification, faithful to its words; each such definition says so in its
doc comment.  Simulated time is taken in an arbitrary linearly ordered
additive commutative group, of which the rationals used by the
specification are an instance; concrete witnesses instantiate it at the
integers.
-/

namespace Musx

/-! ## Part 1: the Mark enumeration, embedded from src/musx/mxml/mark.py -/

/-- Mark group constant, from mark.py: DYNAMIC = 0 << 8. -/
def DYNAMIC : Nat := 0 <<< 8

/-- Mark group constant, from mark.py: ARTICULATION = 1 << 8. -/
def ARTICULATION : Nat := 1 <<< 8

/-- Mark group constant, from mark.py: ORNAMENT = 2 << 8. -/
def ORNAMENT : Nat := 2 <<< 8

/-- Mark group constant, from mark.py: TEMPORAL = 3 << 8. -/
def TEMPORAL : Nat := 3 <<< 8

/-- The 27 members of the Mark IntEnum of mark.py. -/
inductive Mark where
  | NIENTE
  | PPPP
  | PPP
  | PP
  | P
  | MP
  | MF
  | F
  | FF
  | FFF
  | FFFF
  | SFZ
  | CRESCENDO
  | CRESCENDO_END
  | DECRESCENDO
  | DECRESCENDO_END
  | TENUTO
  | DETATCHED
  | STACCATO
  | STACCATISSIMO
  | ACCENT
  | MARCATO
  | TRILL
  | MORDENT
  | TURN
  | FERMATA
  | ACCEL
  | DEACCEL
deriving DecidableEq, Repr

/-- Integer value of each Mark member, written exactly as mark.py assigns
them (group constant plus rank offset). -/
def Mark.value : Mark → Nat
  | .NIENTE => DYNAMIC + 0
  | .PPPP => DYNAMIC + 1
  | .PPP => DYNAMIC + 2
  | .PP => DYNAMIC + 3
  | .P => DYNAMIC + 4
  | .MP => DYNAMIC + 5
  | .MF => DYNAMIC + 6
  | .F => DYNAMIC + 7
  | .FF => DYNAMIC + 8
  | .FFF => DYNAMIC + 9
  | .FFFF => DYNAMIC + 10
  | .SFZ => DYNAMIC + 11
  | .CRESCENDO => DYNAMIC + 12
  | .CRESCENDO_END => DYNAMIC + 13
  | .DECRESCENDO => DYNAMIC + 14
  | .DECRESCENDO_END => DYNAMIC + 15
  | .TENUTO => ARTICULATION + 0
  | .DETATCHED => ARTICULATION + 1
  | .STACCATO => ARTICULATION + 2
  | .STACCATISSIMO => ARTICULATION + 3
  | .ACCENT => ARTICULATION + 4
  | .MARCATO => ARTICULATION + 5
  | .TRILL => ORNAMENT + 0
  | .MORDENT => ORNAMENT + 1
  | .TURN => ORNAMENT + 2
  | .FERMATA => TEMPORAL + 0
  | .ACCEL => TEMPORAL + 1
  | .DEACCEL => TEMPORAL + 2

/-- Mark.rank from mark.py: the lower eight bits of the enum value. -/
def Mark.rank (m : Mark) : Nat := m.value &&& 0x00FF

/-- Mark.group from mark.py: the upper eight bits of the enum value. -/
def Mark.group (m : Mark) : Nat := m.value &&& 0xFF00

/-- All 27 Mark members, in their declaration order in mark.py. -/
def allMarks : List Mark :=
  [.NIENTE, .PPPP, .PPP, .PP, .P, .MP, .MF, .F, .FF, .FFF, .FFFF, .SFZ,
   .CRESCENDO, .CRESCENDO_END, .DECRESCENDO, .DECRESCENDO_END,
   .TENUTO, .DETATCHED, .STACCATO, .STACCATISSIMO, .ACCENT, .MARCATO,
   .TRILL, .MORDENT, .TURN,
   .FERMATA, .ACCEL, .DEACCEL]


/-! ## Part 2: the scheduler, timeline and process core

The scheduler, Timeline (Score) and Process abstraction of the repository
are not present under src/ (only the demo callers are), so every
definition in this part is modelled from the specification (sections 3,
4.1, 4.2, 4.3, 5 and 7 of spec.md). -/

section Scheduler

variable {T : Type} [LinearOrderedAddCommGroup T]

/-- Modelled from the spec: a raw event as handed to the Timeline by a
process resumption — a caller-supplied timestamp (normally now, but a
process may supply any time) plus a kind-specific payload, abstracted as a
number.  The Event record of spec section 3 is missing from src/. -/
structure RawEvent (T : Type) where
  time : T
  payload : Nat
deriving DecidableEq, Repr

/-- Modelled from the spec: an event as stored by the Timeline.  Beyond
the caller-supplied time and payload, the Timeline stamps the submission
identity of the appending process (spec section 7 requires processes to be
identifiable by submission identity) and a sequence number recording
insertion order (spec section 3 requires ties to be stable by insertion
order). -/
structure Event (T : Type) where
  time : T
  pid : Nat
  seq : Nat
  payload : Nat
deriving DecidableEq, Repr

/-- Modelled from the spec: the Timeline (Score) of spec section 4.2,
missing from src/.  It owns the event store, kept in nondecreasing time
order with equal-time events in insertion order, the insertion counter,
and the current-time cursor advanced only by the scheduler. -/
structure Timeline (T : Type) where
  store : List (Event T)
  seqCount : Nat
  now : T
deriving DecidableEq, Repr

/-- Modelled from the spec: ordered insertion into the event store — the
new event is placed after every stored event whose time is less than or
equal to its own, so the store stays sorted by time with equal-time events
in insertion order. -/
def insertEvent (e : Event T) : List (Event T) → List (Event T)
  | [] => [e]
  | x :: xs => if x.time ≤ e.time then x :: insertEvent e xs else e :: x :: xs

/-- Modelled from the spec: Timeline.append of spec section 4.2 — stamps
the appending process id and the next insertion sequence number onto the
raw event and inserts it into the store in time order. -/
def Timeline.append (tl : Timeline T) (pid : Nat) (r : RawEvent T) :
    Timeline T :=
  { store := insertEvent
      { time := r.time, pid := pid, seq := tl.seqCount, payload := r.payload }
      tl.store,
    seqCount := tl.seqCount + 1,
    now := tl.now }

/-- Modelled from the spec: appending, in order, every event produced by
one resumption. -/
def Timeline.appendAll (tl : Timeline T) (pid : Nat) (rs : List (RawEvent T)) :
    Timeline T :=
  rs.foldl (fun t r => t.append pid r) tl

/-- Modelled from the spec: elapsed_since of spec section 4.2, the
convenience query equal to now minus the supplied origin time. -/
def Timeline.elapsedSince (tl : Timeline T) (origin : T) : T := tl.now - origin

mutual
/-- Modelled from the spec: the ProcessResult outcome of one resumption
(spec section 4.1): Continue(wait), Spawn(children, wait), Done, or a
raised error (ProcessFailure, spec section 7).  Each outcome carries the
events the resumption appended, in append order. -/
inductive Resumption (T : Type) : Type where
  | done (events : List (RawEvent T)) : Resumption T
  | cont (events : List (RawEvent T)) (wait : T) (next : Process T) :
      Resumption T
  | spawn (events : List (RawEvent T)) (children : List (Process T))
      (wait : T) (next : Process T) : Resumption T
  | fail (events : List (RawEvent T)) : Resumption T
/-- Modelled from the spec: a Process (spec section 4.1), missing from
src/ — a resumable unit whose single capability is resume, a deterministic
function of its internal state (the closure) and the invocation time. -/
inductive Process (T : Type) : Type where
  | mk (resume : T → Resumption T) : Process T
end

/-- Resume a process at a given invocation time. -/
def Process.resume : Process T → T → Resumption T
  | .mk f => f

/-- Modelled from the spec: the error kinds of spec section 7 that the
scheduler reports, each identifying the offending process by its
submission identity. -/
inductive SchedErr where
  | processFailure (pid : Nat)
  | negativeWait (pid : Nat)
deriving DecidableEq, Repr

/-- Modelled from the spec: a pending-set entry — a process handle
(submission identity), its next-due time, and the process itself. -/
structure Ent (T : Type) where
  pid : Nat
  due : T
  proc : Process T

/-- Modelled from the spec: scheduler configuration (spec sections 4.3 and
7): fail-fast (strict) versus the default isolate-and-continue. -/
structure Config where
  strict : Bool
deriving DecidableEq, Repr

/-- Trace record of one resumption: the resumed process id, the pass time
at which the scheduler invoked it, the Timeline current-time cursor it
observed, the range of insertion sequence numbers its appends received,
and the ids assigned to any children it spawned. -/
structure Rec (T : Type) where
  pid : Nat
  time : T
  now : T
  seqStart : Nat
  seqEnd : Nat
  spawned : List Nat
deriving DecidableEq, Repr

/-- Result of handling one resumption: the updated timeline, the errors
reported, the rescheduled entry for this process (none when it is done or
aborted), the newly spawned children with their fresh ids, the updated id
counter, whether the whole run must abort (fail-fast mode), and the trace
record. -/
structure StepOut (T : Type) where
  timeline : Timeline T
  errors : List SchedErr
  resub : Option (Ent T)
  newProcs : List (Nat × Process T)
  counter : Nat
  abort : Bool
  record : Rec T

/-- Modelled from the spec: handling one resumption of one ready process
at pass time t (spec section 4.3 step 3 and section 7).  The events of the
resumption are appended; Continue reschedules at t + wait; Spawn
additionally assigns fresh ids to the children so they can join the
current ready queue; Done removes the process; a negative wait or a raised
error aborts the offending process (recording NegativeWait or
ProcessFailure) and aborts the whole run only in strict mode. -/
def stepOne (cfg : Config) (t : T) (pid : Nat) (p : Process T)
    (tl : Timeline T) (counter : Nat) : StepOut T :=
  match p.resume tl.now with
  | .done evs =>
    let tl2 := tl.appendAll pid evs
    { timeline := tl2, errors := [], resub := none, newProcs := [],
      counter := counter, abort := false,
      record := { pid := pid, time := t, now := tl.now,
                  seqStart := tl.seqCount, seqEnd := tl2.seqCount,
                  spawned := [] } }
  | .fail evs =>
    let tl2 := tl.appendAll pid evs
    { timeline := tl2, errors := [.processFailure pid], resub := none,
      newProcs := [], counter := counter, abort := cfg.strict,
      record := { pid := pid, time := t, now := tl.now,
                  seqStart := tl.seqCount, seqEnd := tl2.seqCount,
                  spawned := [] } }
  | .cont evs w next =>
    let tl2 := tl.appendAll pid evs
    if w < 0 then
      { timeline := tl2, errors := [.negativeWait pid], resub := none,
        newProcs := [], counter := counter, abort := cfg.strict,
        record := { pid := pid, time := t, now := tl.now,
                    seqStart := tl.seqCount, seqEnd := tl2.seqCount,
                    spawned := [] } }
    else
      { timeline := tl2, errors := [], resub := some ⟨pid, t + w, next⟩,
        newProcs := [], counter := counter, abort := false,
        record := { pid := pid, time := t, now := tl.now,
                    seqStart := tl.seqCount, seqEnd := tl2.seqCount,
                    spawned := [] } }
  | .spawn evs cs w next =>
    let tl2 := tl.appendAll pid evs
    if w < 0 then
      { timeline := tl2, errors := [.negativeWait pid], resub := none,
        newProcs := [], counter := counter, abort := cfg.strict,
        record := { pid := pid, time := t, now := tl.now,
                    seqStart := tl.seqCount, seqEnd := tl2.seqCount,
                    spawned := [] } }
    else
      { timeline := tl2, errors := [],
        resub := some ⟨pid, t + w, next⟩,
        newProcs := (List.range' counter cs.length).zip cs,
        counter := counter + cs.length, abort := false,
        record := { pid := pid, time := t, now := tl.now,
                    seqStart := tl.seqCount, seqEnd := tl2.seqCount,
                    spawned := List.range' counter cs.length } }

/-- Outcome of one ready pass: completed (with the updated timeline, the
rescheduled entries in pass order, the updated id counter, the errors
reported and the resumption trace), aborted mid-pass (strict mode), or out
of fuel. -/
inductive PassResult (T : Type) : Type where
  | completed (tl : Timeline T) (resub : List (Ent T)) (counter : Nat)
      (errs : List SchedErr) (trace : List (Rec T)) : PassResult T
  | aborted (tl : Timeline T) (counter : Nat) (errs : List SchedErr)
      (trace : List (Rec T)) : PassResult T
  | outOfFuel : PassResult T

/-- Modelled from the spec: one full ready pass at time t (spec section
4.3 steps 3 and 4): the ready queue is consumed in order; children spawned
during the pass are appended to the end of the queue, so they are resumed
within the same pass at the same time, after their parent and after every
process already queued; zero-wait Continues are rescheduled into the
pending set, never into the current queue, so the full pass completes
before any zero-wait resubmission is re-checked.  Fuel bounds the number
of resumptions; one unit is consumed per resumption. -/
def runPass (cfg : Config) :
    Nat → T → List (Nat × Process T) → Timeline T → Nat → PassResult T
  | _, _, [], tl, counter => .completed tl [] counter [] []
  | 0, _, _ :: _, _, _ => .outOfFuel
  | fuel + 1, t, (pid, p) :: q, tl, counter =>
    let s := stepOne cfg t pid p tl counter
    if s.abort then
      .aborted s.timeline s.counter s.errors [s.record]
    else
      match runPass cfg fuel t (q ++ s.newProcs) s.timeline s.counter with
      | .completed tl2 rs c2 es tr =>
          .completed tl2 (s.resub.toList ++ rs) c2 (s.errors ++ es)
            (s.record :: tr)
      | .aborted tl2 c2 es tr =>
          .aborted tl2 c2 (s.errors ++ es) (s.record :: tr)
      | .outOfFuel => .outOfFuel

/-- Modelled from the spec: insertion of a rescheduled entry into the
pending set at its submission-order position — after every entry whose
submission id is at most its own (the pending set is an arena indexed by
submission order, spec section 9). -/
def insertEnt (e : Ent T) : List (Ent T) → List (Ent T)
  | [] => [e]
  | x :: xs => if x.pid ≤ e.pid then x :: insertEnt e xs else e :: x :: xs

/-- Modelled from the spec: merging the rescheduled entries of a pass back
into the pending set, each at its submission-order position. -/
def mergeEnts (xs ys : List (Ent T)) : List (Ent T) :=
  ys.foldl (fun acc y => insertEnt y acc) xs

/-- Modelled from the spec: scheduler run-state (spec section 3): the
Timeline, the pending process forest in submission order, the next fresh
process id, the errors reported so far and the resumption trace so far. -/
structure SchedState (T : Type) where
  timeline : Timeline T
  pending : List (Ent T)
  counter : Nat
  errors : List SchedErr
  trace : List (Rec T)

/-- Minimum next-due time of a nonempty pending set. -/
def minDue (e : Ent T) (es : List (Ent T)) : T :=
  es.foldl (fun m x => min m x.due) e.due

/-- Result of a scheduler run: the terminal state (finalized timeline,
errors reported, full resumption trace), a whole-run abort (strict mode),
or out of fuel. -/
inductive RunResult (T : Type) : Type where
  | finished (tl : Timeline T) (errs : List SchedErr) (trace : List (Rec T)) :
      RunResult T
  | aborted (tl : Timeline T) (errs : List SchedErr) (trace : List (Rec T)) :
      RunResult T
  | outOfFuel : RunResult T
deriving DecidableEq

/-- Modelled from the spec: the scheduler loop of spec section 4.3.  While
the pending set is nonempty: compute the minimum next-due time, advance
the Timeline cursor to it, run one full ready pass over the processes due
at it (in submission order), then merge the rescheduled entries back into
the pending set and repeat.  Terminal state: pending set empty.  The first
fuel argument bounds the number of passes, the second the number of
resumptions within one pass. -/
def run (cfg : Config) : Nat → Nat → SchedState T → RunResult T
  | passes, fuel, st =>
    match st.pending, passes with
    | [], _ => .finished st.timeline st.errors st.trace
    | _ :: _, 0 => .outOfFuel
    | e :: es, passes + 1 =>
      let t := minDue e es
      let ready := (st.pending.filter (fun x => x.due = t)).map
        (fun x => (x.pid, x.proc))
      let rest := st.pending.filter (fun x => ¬ x.due = t)
      match runPass cfg fuel t ready { st.timeline with now := t } st.counter with
      | .completed tl2 resubs c2 errs tr =>
          run cfg passes fuel
            { timeline := tl2, pending := mergeEnts rest resubs,
              counter := c2, errors := st.errors ++ errs,
              trace := st.trace ++ tr }
      | .aborted tl2 _ errs tr =>
          .aborted tl2 (st.errors ++ errs) (st.trace ++ tr)
      | .outOfFuel => .outOfFuel

/-- Modelled from the spec: the composition entry point (submit, spec
section 4.2) — registers the root processes to begin at time 0, assigning
submission ids in order. -/
def initState (roots : List (Process T)) : SchedState T :=
  { timeline := { store := [], seqCount := 0, now := 0 },
    pending := ((List.range' 0 roots.length).zip roots).map
      (fun x => ⟨x.1, 0, x.2⟩),
    counter := roots.length, errors := [], trace := [] }

/-- Whether a pass completed normally. -/
def PassResult.isCompleted : PassResult T → Bool
  | .completed _ _ _ _ _ => true
  | _ => false

/-- The trace of a pass result. -/
def PassResult.trace : PassResult T → List (Rec T)
  | .completed _ _ _ _ tr => tr
  | .aborted _ _ _ tr => tr
  | .outOfFuel => []

/-- The event store of a pass result. -/
def PassResult.store : PassResult T → List (Event T)
  | .completed tl _ _ _ _ => tl.store
  | .aborted tl _ _ _ => tl.store
  | .outOfFuel => []

/-- Whether a run reached the terminal state. -/
def RunResult.isFinished : RunResult T → Bool
  | .finished _ _ _ => true
  | _ => false

/-- Whether a run was aborted whole (strict mode). -/
def RunResult.isAborted : RunResult T → Bool
  | .aborted _ _ _ => true
  | _ => false

/-- The trace of a run result. -/
def RunResult.trace : RunResult T → List (Rec T)
  | .finished _ _ tr => tr
  | .aborted _ _ tr => tr
  | .outOfFuel => []

/-- The event store of a run result. -/
def RunResult.store : RunResult T → List (Event T)
  | .finished tl _ _ => tl.store
  | .aborted tl _ _ => tl.store
  | .outOfFuel => []

/-- The reported errors of a run result. -/
def RunResult.errs : RunResult T → List SchedErr
  | .finished _ es _ => es
  | .aborted _ es _ => es
  | .outOfFuel => []

/-- Strict ordering of stored events by time, with insertion sequence
number breaking ties: the order in which the Timeline must expose events
to a renderer. -/
def lexLt (a b : Event T) : Prop :=
  a.time < b.time ∨ (a.time = b.time ∧ a.seq < b.seq)

/-- Well-formedness of a timeline: the store is sorted in the
time-then-insertion order and every stored sequence number is below the
insertion counter. -/
def WFtl (tl : Timeline T) : Prop :=
  tl.store.Pairwise lexLt ∧ ∀ e ∈ tl.store, e.seq < tl.seqCount

/-- Boolean test that a list of ids is strictly increasing. -/
def strictIncr : List Nat → Bool
  | [] => true
  | [_] => true
  | a :: b :: t => a < b && strictIncr (b :: t)

/-- The events appended during a resumption, whatever its outcome. -/
def Resumption.events : Resumption T → List (RawEvent T)
  | .done evs => evs
  | .cont evs _ _ => evs
  | .spawn evs _ _ _ => evs
  | .fail evs => evs

/-- Modelled from the spec: the family of processes that return
Continue(0) n times and then Done, used to exhibit the legal
run-unboundedly-often-at-one-instant behavior of spec section 4.3. -/
def repeatZero : Nat → Process T
  | 0 => .mk fun _ => .done []
  | n + 1 => .mk fun _ => .cont [] 0 (repeatZero n)

/-- An empty integer-time timeline used by concrete witnesses. -/
def tl0 : Timeline Int := { store := [], seqCount := 0, now := 0 }

/-- Concrete witness process: appends one event at the current time, done. -/
def witA : Process Int := .mk fun now => .done [⟨now, 1⟩]

/-- Concrete witness process: appends one event at the current time, done. -/
def witB : Process Int := .mk fun now => .done [⟨now, 2⟩]

/-- Concrete witness process: appends an event one unit in the past (an
out-of-time-order append), done. -/
def witOut : Process Int := .mk fun now => .done [⟨now - 1, 4⟩]

/-- Concrete witness process: appends an event, spawns one child, waits 1,
then is done without further appends. -/
def witSpawner : Process Int :=
  .mk fun now => .spawn [⟨now, 5⟩] [witA] 1 (.mk fun _ => .done [])

/-- Concrete witness process: raises during its resumption after
appending one event. -/
def witFailer : Process Int := .mk fun _ => .fail [⟨3, 9⟩]

/-- Concrete witness process: yields a negative wait. -/
def witNeg : Process Int := .mk fun _ => .cont [] (-1) (.mk fun _ => .done [])

/-- Concrete witness process: yields a zero wait once, then behaves as
witA. -/
def witZero : Process Int := .mk fun _ => .cont [] 0 witA

/-- C9: for every member m of the Mark enumeration, m.group() + m.rank()
equals the integer value of m, with m.rank() = m & 0x00FF and
m.group() = m & 0xFF00, and m.group() is always one of the four group
constants DYNAMIC = 0, ARTICULATION = 256, ORNAMENT = 512, TEMPORAL = 768. -/
theorem mark_group_add_rank (m : Mark) :
    m.group + m.rank = m.value ∧
    m.rank = m.value &&& 0x00FF ∧
    m.group = m.value &&& 0xFF00 ∧
    (m.group = DYNAMIC ∨ m.group = ARTICULATION ∨ m.group = ORNAMENT ∨
      m.group = TEMPORAL) ∧
    DYNAMIC = 0 ∧ ARTICULATION = 256 ∧ ORNAMENT = 512 ∧ TEMPORAL = 768 := by
  cases m <;> decide

/-- C10: the 27 Mark members have pairwise distinct integer values, and
within each group the ranks are contiguous from 0: the 16 DYNAMIC members
have ranks 0 through 15, the 6 ARTICULATION members ranks 0 through 5, the
3 ORNAMENT members ranks 0 through 2, and the 3 TEMPORAL members ranks 0
through 2. -/
theorem mark_values_distinct_ranks_contiguous :
    (∀ m : Mark, m ∈ allMarks) ∧
    (allMarks.map Mark.value).Nodup ∧
    (allMarks.filter (fun m => m.group = DYNAMIC)).map Mark.rank =
      List.range 16 ∧
    (allMarks.filter (fun m => m.group = ARTICULATION)).map Mark.rank =
      List.range 6 ∧
    (allMarks.filter (fun m => m.group = ORNAMENT)).map Mark.rank =
      List.range 3 ∧
    (allMarks.filter (fun m => m.group = TEMPORAL)).map Mark.rank =
      List.range 3 := by
  refine ⟨fun m => ?_, by decide, by decide, by decide, by decide, by decide⟩
  cases m <;> decide

/-! ### Timeline lemmas -/

theorem lexLt_time_le {a b : Event T} (h : lexLt a b) : a.time ≤ b.time := by
  rcases h with h | ⟨h, _⟩
  · exact le_of_lt h
  · exact le_of_eq h

theorem insertEvent_sublist (e : Event T) (xs : List (Event T)) :
    xs.Sublist (insertEvent e xs) := by
  induction xs with
  | nil => exact List.nil_sublist _
  | cons x xs ih =>
    simp only [insertEvent]
    split
    · exact List.Sublist.cons₂ x ih
    · exact List.sublist_cons_self e (x :: xs)

theorem mem_insertEvent {a e : Event T} {xs : List (Event T)} :
    a ∈ insertEvent e xs ↔ a = e ∨ a ∈ xs := by
  induction xs with
  | nil => simp [insertEvent]
  | cons x xs ih =>
    simp only [insertEvent]
    split
    · simp only [List.mem_cons, ih]
      tauto
    · simp only [List.mem_cons]

theorem insertEvent_pairwise {e : Event T} {xs : List (Event T)}
    (hs : xs.Pairwise lexLt) (hseq : ∀ x ∈ xs, x.seq < e.seq) :
    (insertEvent e xs).Pairwise lexLt := by
  induction xs with
  | nil => simp [insertEvent]
  | cons x xs ih =>
    rw [List.pairwise_cons] at hs
    simp only [insertEvent]
    split
    · rename_i hle
      rw [List.pairwise_cons]
      refine ⟨fun b hb => ?_, ih hs.2 (fun y hy => hseq y (List.mem_cons_of_mem x hy))⟩
      rcases mem_insertEvent.1 hb with rfl | hb
      · rcases lt_or_eq_of_le hle with h | h
        · exact Or.inl h
        · exact Or.inr ⟨h, hseq x (List.mem_cons_self x xs)⟩
      · exact hs.1 b hb
    · rename_i hgt
      push_neg at hgt
      rw [List.pairwise_cons]
      refine ⟨fun b hb => ?_, List.pairwise_cons.2 hs⟩
      rcases hb with _ | hb
      · exact Or.inl hgt
      · rename_i hb
        exact Or.inl (lt_of_lt_of_le hgt (lexLt_time_le (hs.1 b hb)))

theorem append_WF {tl : Timeline T} {pid : Nat} {r : RawEvent T}
    (h : WFtl tl) : WFtl (tl.append pid r) := by
  obtain ⟨hp, hb⟩ := h
  constructor
  · exact insertEvent_pairwise hp (fun x hx => hb x hx)
  · intro e he
    rcases mem_insertEvent.1 he with rfl | he
    · exact Nat.lt_succ_self _
    · exact Nat.lt_succ_of_lt (hb e he)

theorem append_now (tl : Timeline T) (pid : Nat) (r : RawEvent T) :
    (tl.append pid r).now = tl.now := rfl

theorem append_seqCount (tl : Timeline T) (pid : Nat) (r : RawEvent T) :
    (tl.append pid r).seqCount = tl.seqCount + 1 := rfl

theorem mem_append_store {e : Event T} {tl : Timeline T} {pid : Nat}
    {r : RawEvent T} (h : e ∈ (tl.append pid r).store) :
    e ∈ tl.store ∨ (e.pid = pid ∧ e.seq = tl.seqCount) := by
  rcases mem_insertEvent.1 h with rfl | h
  · exact Or.inr ⟨rfl, rfl⟩
  · exact Or.inl h

theorem appendAll_WF {tl : Timeline T} {pid : Nat} {rs : List (RawEvent T)}
    (h : WFtl tl) : WFtl (tl.appendAll pid rs) := by
  induction rs generalizing tl with
  | nil => exact h
  | cons r rs ih => exact ih (append_WF h)

theorem appendAll_now (tl : Timeline T) (pid : Nat) (rs : List (RawEvent T)) :
    (tl.appendAll pid rs).now = tl.now := by
  induction rs generalizing tl with
  | nil => rfl
  | cons r rs ih => exact (ih (tl.append pid r)).trans rfl

theorem appendAll_seqCount_le (tl : Timeline T) (pid : Nat)
    (rs : List (RawEvent T)) :
    tl.seqCount ≤ (tl.appendAll pid rs).seqCount := by
  induction rs generalizing tl with
  | nil => exact le_refl _
  | cons r rs ih =>
    exact le_trans (Nat.le_succ _) (ih (tl.append pid r))

theorem appendAll_sublist (tl : Timeline T) (pid : Nat)
    (rs : List (RawEvent T)) :
    tl.store.Sublist (tl.appendAll pid rs).store := by
  induction rs generalizing tl with
  | nil => exact List.Sublist.refl _
  | cons r rs ih =>
    exact List.Sublist.trans (insertEvent_sublist _ _) (ih (tl.append pid r))

theorem mem_appendAll_store {e : Event T} {tl : Timeline T} {pid : Nat}
    {rs : List (RawEvent T)} (h : e ∈ (tl.appendAll pid rs).store) :
    e ∈ tl.store ∨
      (e.pid = pid ∧ tl.seqCount ≤ e.seq ∧
        e.seq < (tl.appendAll pid rs).seqCount) := by
  induction rs generalizing tl with
  | nil => exact Or.inl h
  | cons r rs ih =>
    rcases @ih (tl.append pid r) h with h2 | ⟨hpid, hle, hlt⟩
    · rcases mem_append_store h2 with h3 | ⟨hpid, hseq⟩
      · exact Or.inl h3
      · refine Or.inr ⟨hpid, le_of_eq hseq.symm, ?_⟩
        rw [hseq]
        exact lt_of_lt_of_le (Nat.lt_succ_self _)
          (appendAll_seqCount_le (tl.append pid r) pid rs)
    · exact Or.inr ⟨hpid, le_trans (Nat.le_succ _) hle, hlt⟩

/-! ### stepOne lemmas -/


theorem stepOne_timeline (cfg : Config) (t : T) (pid : Nat) (p : Process T)
    (tl : Timeline T) (c : Nat) :
    (stepOne cfg t pid p tl c).timeline =
      tl.appendAll pid (p.resume tl.now).events := by
  cases hres : p.resume tl.now <;>
    simp only [stepOne, hres, Resumption.events] <;> split <;> rfl

theorem stepOne_record (cfg : Config) (t : T) (pid : Nat) (p : Process T)
    (tl : Timeline T) (c : Nat) :
    (stepOne cfg t pid p tl c).record.pid = pid ∧
    (stepOne cfg t pid p tl c).record.time = t ∧
    (stepOne cfg t pid p tl c).record.now = tl.now ∧
    (stepOne cfg t pid p tl c).record.seqStart = tl.seqCount ∧
    (stepOne cfg t pid p tl c).record.seqEnd =
      (stepOne cfg t pid p tl c).timeline.seqCount := by
  cases hres : p.resume tl.now <;> simp only [stepOne, hres] <;>
    (try split) <;> simp

theorem stepOne_counter_le (cfg : Config) (t : T) (pid : Nat) (p : Process T)
    (tl : Timeline T) (c : Nat) : c ≤ (stepOne cfg t pid p tl c).counter := by
  cases hres : p.resume tl.now <;> simp only [stepOne, hres] <;>
    (try split) <;> simp

theorem stepOne_abort_strict (cfg : Config) (t : T) (pid : Nat)
    (p : Process T) (tl : Timeline T) (c : Nat)
    (h : (stepOne cfg t pid p tl c).abort = true) : cfg.strict = true := by
  cases hres : p.resume tl.now <;> simp only [stepOne, hres] at h <;>
    (try split at h) <;> simp_all

theorem stepOne_spawned_eq (cfg : Config) (t : T) (pid : Nat) (p : Process T)
    (tl : Timeline T) (c : Nat) :
    (stepOne cfg t pid p tl c).record.spawned =
      (stepOne cfg t pid p tl c).newProcs.map Prod.fst := by
  cases hres : p.resume tl.now
  · simp only [stepOne, hres]
    rfl
  · simp only [stepOne, hres]
    split <;> rfl
  · simp only [stepOne, hres]
    split
    · rfl
    · exact (List.map_fst_zip _ _ (by simp)).symm
  · simp only [stepOne, hres]
    rfl

theorem stepOne_newProcs_pids (cfg : Config) (t : T) (pid : Nat)
    (p : Process T) (tl : Timeline T) (c : Nat) :
    (∀ a ∈ (stepOne cfg t pid p tl c).newProcs.map Prod.fst,
        c ≤ a ∧ a < (stepOne cfg t pid p tl c).counter) ∧
    ((stepOne cfg t pid p tl c).newProcs.map Prod.fst).Pairwise (· < ·) := by
  cases hres : p.resume tl.now
  · simp [stepOne, hres]
  · simp only [stepOne, hres]
    split <;> simp
  · simp only [stepOne, hres]
    split
    · simp
    · rw [List.map_fst_zip _ _ (by simp)]
      refine ⟨fun a ha => ?_, List.pairwise_lt_range' c _⟩
      rw [List.mem_range'_1] at ha
      exact ⟨ha.1, ha.2⟩
  · simp [stepOne, hres]

theorem stepOne_resub_pid (cfg : Config) (t : T) (pid : Nat) (p : Process T)
    (tl : Timeline T) (c : Nat) {ent : Ent T}
    (h : (stepOne cfg t pid p tl c).resub = some ent) : ent.pid = pid := by
  cases hres : p.resume tl.now
  · simp [stepOne, hres] at h
  · simp only [stepOne, hres] at h
    split at h
    · simp at h
    · simp only [Option.some_inj] at h
      rw [← h]
  · simp only [stepOne, hres] at h
    split at h
    · simp at h
    · simp only [Option.some_inj] at h
      rw [← h]
  · simp [stepOne, hres] at h

/-! ### runPass master lemmas -/

theorem runPass_completed_basic (cfg : Config) :
    ∀ (fuel : Nat) (t : T) (queue : List (Nat × Process T)) (tl : Timeline T)
      (c : Nat) {tl2 : Timeline T} {rs : List (Ent T)} {c2 : Nat}
      {es : List SchedErr} {tr : List (Rec T)},
      runPass cfg fuel t queue tl c = .completed tl2 rs c2 es tr →
      tl2.now = tl.now ∧ tl.seqCount ≤ tl2.seqCount ∧
      tl.store.Sublist tl2.store ∧ c ≤ c2 ∧
      (WFtl tl → WFtl tl2) ∧
      (∀ r ∈ tr, r.time = t ∧ r.now = tl.now ∧
        tl.seqCount ≤ r.seqStart ∧ r.seqStart ≤ r.seqEnd ∧
        r.seqEnd ≤ tl2.seqCount) ∧
      tr.Pairwise (fun a b => a.seqEnd ≤ b.seqStart) ∧
      (∀ e ∈ tl2.store, e ∈ tl.store ∨
        ∃ r ∈ tr, r.pid = e.pid ∧ r.seqStart ≤ e.seq ∧ e.seq < r.seqEnd) := by
  intro fuel
  induction fuel with
  | zero =>
    intro t queue tl c tl2 rs c2 es tr h
    cases queue with
    | nil =>
      simp only [runPass] at h
      cases h
      exact ⟨rfl, le_refl _, List.Sublist.refl _, le_refl _, id,
        by simp, by simp, fun e he => Or.inl he⟩
    | cons hd q =>
      simp only [runPass] at h
      cases h
  | succ fuel ih =>
    intro t queue tl c tl2 rs c2 es tr h
    cases queue with
    | nil =>
      simp only [runPass] at h
      cases h
      exact ⟨rfl, le_refl _, List.Sublist.refl _, le_refl _, id,
        by simp, by simp, fun e he => Or.inl he⟩
    | cons hd q =>
      obtain ⟨pid, p⟩ := hd
      simp only [runPass] at h
      by_cases hb : (stepOne cfg t pid p tl c).abort
      · simp only [hb, if_true] at h
        cases h
      · simp only [hb, if_false] at h
        cases hrec : runPass cfg fuel t (q ++ (stepOne cfg t pid p tl c).newProcs)
            (stepOne cfg t pid p tl c).timeline (stepOne cfg t pid p tl c).counter with
        | completed tl2i rsi c2i esi tri =>
          rw [hrec] at h
          cases h
          obtain ⟨ihnow, ihseq, ihsub, ihc, ihwf, ihrec, ihpw, ihev⟩ :=
            ih t (q ++ (stepOne cfg t pid p tl c).newProcs)
              (stepOne cfg t pid p tl c).timeline
              (stepOne cfg t pid p tl c).counter hrec
          obtain ⟨hrpid, hrtime, hrnow, hrstart, hrend⟩ :=
            stepOne_record cfg t pid p tl c
          have htl : (stepOne cfg t pid p tl c).timeline =
              tl.appendAll pid (p.resume tl.now).events :=
            stepOne_timeline cfg t pid p tl c
          have hnow2 : (stepOne cfg t pid p tl c).timeline.now = tl.now := by
            rw [htl]
            exact appendAll_now tl pid _
          have hseq2 : tl.seqCount ≤ (stepOne cfg t pid p tl c).timeline.seqCount := by
            rw [htl]
            exact appendAll_seqCount_le tl pid _
          have hsub2 : tl.store.Sublist (stepOne cfg t pid p tl c).timeline.store := by
            rw [htl]
            exact appendAll_sublist tl pid _
          refine ⟨ihnow.trans hnow2, le_trans hseq2 ihseq,
            hsub2.trans ihsub, le_trans (stepOne_counter_le cfg t pid p tl c) ihc,
            fun hwf => ihwf (by rw [htl]; exact appendAll_WF hwf), ?_, ?_, ?_⟩
          · intro r hr
            rcases List.mem_cons.1 hr with rfl | hr
            · exact ⟨hrtime, hrnow, le_of_eq hrstart.symm,
                by rw [hrstart, hrend]; exact hseq2, by rw [hrend]; exact ihseq⟩
            · obtain ⟨h1, h2, h3, h4, h5⟩ := ihrec r hr
              exact ⟨h1, h2.trans hnow2, le_trans hseq2 h3, h4, h5⟩
          · rw [List.pairwise_cons]
            refine ⟨fun r hr => ?_, ihpw⟩
            rw [hrend]
            exact (ihrec r hr).2.2.1
          · intro e he
            rcases ihev e he with he2 | ⟨r, hr, hrp, hr1, hr2⟩
            · rw [htl] at he2
              rcases mem_appendAll_store he2 with he3 | ⟨hep, hes1, hes2⟩
              · exact Or.inl he3
              · refine Or.inr ⟨(stepOne cfg t pid p tl c).record,
                  List.mem_cons_self _ _, ?_, ?_, ?_⟩
                · rw [hrpid, hep]
                · rw [hrstart]
                  exact hes1
                · rw [hrend, htl]
                  exact hes2
            · exact Or.inr ⟨r, List.mem_cons_of_mem _ hr, hrp, hr1, hr2⟩
        | aborted tl2i c2i esi tri =>
          rw [hrec] at h
          cases h
        | outOfFuel =>
          rw [hrec] at h
          cases h

theorem runPass_completed_pids (cfg : Config) :
    ∀ (fuel : Nat) (t : T) (queue : List (Nat × Process T)) (tl : Timeline T)
      (c : Nat) {tl2 : Timeline T} {rs : List (Ent T)} {c2 : Nat}
      {es : List SchedErr} {tr : List (Rec T)},
      runPass cfg fuel t queue tl c = .completed tl2 rs c2 es tr →
      (queue.map Prod.fst).Pairwise (· < ·) →
      (∀ x ∈ queue, x.1 < c) →
      (∀ r ∈ tr, r.pid ∈ queue.map Prod.fst ∨ c ≤ r.pid) ∧
      tr.Pairwise (fun a b => a.pid < b.pid) ∧
      (∀ x ∈ queue, ∃ r ∈ tr, r.pid = x.1) ∧
      (∀ r ∈ tr, ∀ a ∈ r.spawned, c ≤ a ∧ r.pid < a ∧
        ∃ r2 ∈ tr, r2.pid = a) := by
  intro fuel
  induction fuel with
  | zero =>
    intro t queue tl c tl2 rs c2 es tr h hq hbound
    cases queue with
    | nil =>
      simp only [runPass] at h
      cases h
      exact ⟨by simp, by simp, by simp, by simp⟩
    | cons hd q =>
      simp only [runPass] at h
      cases h
  | succ fuel ih =>
    intro t queue tl c tl2 rs c2 es tr h hq hbound
    cases queue with
    | nil =>
      simp only [runPass] at h
      cases h
      exact ⟨by simp, by simp, by simp, by simp⟩
    | cons hd q =>
      obtain ⟨pid, p⟩ := hd
      simp only [runPass] at h
      by_cases hb : (stepOne cfg t pid p tl c).abort
      · simp only [hb, if_true] at h
        cases h
      · simp only [hb, if_false] at h
        cases hrec : runPass cfg fuel t (q ++ (stepOne cfg t pid p tl c).newProcs)
            (stepOne cfg t pid p tl c).timeline (stepOne cfg t pid p tl c).counter with
        | completed tl2i rsi c2i esi tri =>
          rw [hrec] at h
          cases h
          obtain ⟨hnp1, hnp2⟩ := stepOne_newProcs_pids cfg t pid p tl c
          have hcle : c ≤ (stepOne cfg t pid p tl c).counter :=
            stepOne_counter_le cfg t pid p tl c
          have hpidc : pid < c := hbound (pid, p) (List.mem_cons_self _ _)
          rw [List.map_cons, List.pairwise_cons] at hq
          have hq2 : ((q ++ (stepOne cfg t pid p tl c).newProcs).map
              Prod.fst).Pairwise (· < ·) := by
            rw [List.map_append, List.pairwise_append]
            refine ⟨hq.2, hnp2, fun a ha b hb2 => ?_⟩
            obtain ⟨x, hx, rfl⟩ := List.mem_map.1 ha
            exact lt_of_lt_of_le
              (hbound x (List.mem_cons_of_mem _ hx)) (hnp1 b hb2).1
          have hbound2 : ∀ x ∈ q ++ (stepOne cfg t pid p tl c).newProcs,
              x.1 < (stepOne cfg t pid p tl c).counter := by
            intro x hx
            rcases List.mem_append.1 hx with hx | hx
            · exact lt_of_lt_of_le (hbound x (List.mem_cons_of_mem _ hx)) hcle
            · exact (hnp1 x.1 (List.mem_map_of_mem Prod.fst hx)).2
          obtain ⟨ihmem, ihpw, ihall, ihsp⟩ :=
            ih t (q ++ (stepOne cfg t pid p tl c).newProcs)
              (stepOne cfg t pid p tl c).timeline
              (stepOne cfg t pid p tl c).counter hrec hq2 hbound2
          obtain ⟨hrpid, _, _, _, _⟩ := stepOne_record cfg t pid p tl c
          have hlt : ∀ r ∈ tri, pid < r.pid := by
            intro r hr
            rcases ihmem r hr with hin | hge
            · rw [List.map_append, List.mem_append] at hin
              rcases hin with hin | hin
              · exact hq.1 r.pid hin
              · exact lt_of_lt_of_le hpidc (hnp1 r.pid hin).1
            · exact lt_of_lt_of_le hpidc (le_trans hcle hge)
          refine ⟨?_, ?_, ?_, ?_⟩
          · intro r hr
            rcases List.mem_cons.1 hr with rfl | hr
            · rw [hrpid]
              exact Or.inl (by simp)
            · rcases ihmem r hr with hin | hge
              · rw [List.map_append, List.mem_append] at hin
                rcases hin with hin | hin
                · exact Or.inl (by simp [hin])
                · exact Or.inr (hnp1 r.pid hin).1
              · exact Or.inr (le_trans hcle hge)
          · rw [List.pairwise_cons]
            exact ⟨fun r hr => by rw [hrpid]; exact hlt r hr, ihpw⟩
          · intro x hx
            rcases List.mem_cons.1 hx with rfl | hx
            · exact ⟨(stepOne cfg t pid p tl c).record,
                List.mem_cons_self _ _, hrpid⟩
            · obtain ⟨r, hr, hrx⟩ := ihall x (List.mem_append_left _ hx)
              exact ⟨r, List.mem_cons_of_mem _ hr, hrx⟩
          · intro r hr a ha
            rcases List.mem_cons.1 hr with rfl | hr
            · rw [stepOne_spawned_eq cfg t pid p tl c] at ha
              obtain ⟨x, hx, rfl⟩ := List.mem_map.1 ha
              obtain ⟨r2, hr2, hr2x⟩ :=
                ihall x (List.mem_append_right _ hx)
              exact ⟨(hnp1 x.1 (List.mem_map_of_mem Prod.fst hx)).1,
                by rw [hrpid]
                   exact lt_of_lt_of_le hpidc
                     (hnp1 x.1 (List.mem_map_of_mem Prod.fst hx)).1,
                r2, List.mem_cons_of_mem _ hr2, hr2x⟩
            · obtain ⟨h1, h2, r2, hr2, hr2a⟩ := ihsp r hr a ha
              exact ⟨le_trans hcle h1, h2, r2,
                List.mem_cons_of_mem _ hr2, hr2a⟩
        | aborted tl2i c2i esi tri =>
          rw [hrec] at h
          cases h
        | outOfFuel =>
          rw [hrec] at h
          cases h

/-! ### Abort and run-level lemmas -/

theorem runPass_aborted_strict (cfg : Config) :
    ∀ (fuel : Nat) (t : T) (queue : List (Nat × Process T)) (tl : Timeline T)
      (c : Nat) {tl2 : Timeline T} {c2 : Nat} {es : List SchedErr}
      {tr : List (Rec T)},
      runPass cfg fuel t queue tl c = .aborted tl2 c2 es tr →
      cfg.strict = true := by
  intro fuel
  induction fuel with
  | zero =>
    intro t queue tl c tl2 c2 es tr h
    cases queue with
    | nil =>
      simp only [runPass] at h
      cases h
    | cons hd q =>
      simp only [runPass] at h
      cases h
  | succ fuel ih =>
    intro t queue tl c tl2 c2 es tr h
    cases queue with
    | nil =>
      simp only [runPass] at h
      cases h
    | cons hd q =>
      obtain ⟨pid, p⟩ := hd
      simp only [runPass] at h
      by_cases hb : (stepOne cfg t pid p tl c).abort
      · exact stepOne_abort_strict cfg t pid p tl c hb
      · simp only [hb, if_false] at h
        cases hrec : runPass cfg fuel t (q ++ (stepOne cfg t pid p tl c).newProcs)
            (stepOne cfg t pid p tl c).timeline (stepOne cfg t pid p tl c).counter with
        | completed tl2i rsi c2i esi tri =>
          rw [hrec] at h
          cases h
        | aborted tl2i c2i esi tri =>
          exact ih t _ _ _ hrec
        | outOfFuel =>
          rw [hrec] at h
          cases h

theorem run_aborted_strict (cfg : Config) :
    ∀ (passes fuel : Nat) (st : SchedState T) {tl : Timeline T}
      {es : List SchedErr} {tr : List (Rec T)},
      run cfg passes fuel st = .aborted tl es tr → cfg.strict = true := by
  intro passes
  induction passes with
  | zero =>
    intro fuel st tl es tr h
    cases hp : st.pending with
    | nil =>
      rw [run.eq_1 cfg fuel st 0 hp] at h
      cases h
    | cons e es2 =>
      rw [run.eq_2 cfg fuel st e es2 hp] at h
      cases h
  | succ passes ih =>
    intro fuel st tl es tr h
    cases hp : st.pending with
    | nil =>
      rw [run.eq_1 cfg fuel st (passes + 1) hp] at h
      cases h
    | cons e es2 =>
      rw [run.eq_3 cfg fuel st e es2 passes hp] at h
      split at h
      · exact ih fuel _ h
      · rename_i heq
        exact runPass_aborted_strict cfg fuel _ _ _ _ heq
      · cases h

theorem run_finished_wf (cfg : Config) :
    ∀ (passes fuel : Nat) (st : SchedState T) {tl : Timeline T}
      {es : List SchedErr} {tr : List (Rec T)},
      run cfg passes fuel st = .finished tl es tr →
      (WFtl st.timeline → WFtl tl) ∧
      ((∀ r ∈ st.trace, r.now = r.time) → ∀ r ∈ tr, r.now = r.time) := by
  intro passes
  induction passes with
  | zero =>
    intro fuel st tl es tr h
    cases hp : st.pending with
    | nil =>
      rw [run.eq_1 cfg fuel st 0 hp] at h
      cases h
      exact ⟨id, id⟩
    | cons e es2 =>
      rw [run.eq_2 cfg fuel st e es2 hp] at h
      cases h
  | succ passes ih =>
    intro fuel st tl es tr h
    cases hp : st.pending with
    | nil =>
      rw [run.eq_1 cfg fuel st (passes + 1) hp] at h
      cases h
      exact ⟨id, id⟩
    | cons e es2 =>
      rw [run.eq_3 cfg fuel st e es2 passes hp] at h
      split at h
      · rename_i tl2 resubs c2 errs tr2 heq
        obtain ⟨ihwf, ihnow⟩ := ih fuel _ h
        obtain ⟨_, _, _, _, hwf, hrecs, _, _⟩ :=
          runPass_completed_basic cfg fuel _ _ _ _ heq
        constructor
        · intro hW
          exact ihwf (hwf hW)
        · intro hT r hr
          refine ihnow ?_ r hr
          intro r2 hr2
          rcases List.mem_append.1 hr2 with hr2 | hr2
          · exact hT r2 hr2
          · obtain ⟨h1, h2, _⟩ := hrecs r2 hr2
            rw [h1, h2]
      · cases h
      · cases h

theorem run_default_not_aborted (cfg : Config) (passes fuel : Nat)
    (st : SchedState T) (hs : cfg.strict = false) :
    (run cfg passes fuel st).isAborted = false := by
  cases hr : run cfg passes fuel st with
  | finished tl es tr => rfl
  | aborted tl es tr =>
    rw [run_aborted_strict cfg passes fuel st hr] at hs
    cases hs
  | outOfFuel => rfl

theorem run_single_step (cfg : Config) (passes fuel : Nat) (tl : Timeline T)
    (c : Nat) (E : List SchedErr) (R : List (Rec T)) (pid : Nat) (t : T)
    (p : Process T) :
    run cfg (passes + 1) fuel ⟨tl, [⟨pid, t, p⟩], c, E, R⟩ =
      match runPass cfg fuel t [(pid, p)] { tl with now := t } c with
      | .completed tl2 resubs c2 errs tr =>
          run cfg passes fuel
            ⟨tl2, mergeEnts [] resubs, c2, E ++ errs, R ++ tr⟩
      | .aborted tl2 _ errs tr => .aborted tl2 (E ++ errs) (R ++ tr)
      | .outOfFuel => .outOfFuel := by
  rw [run.eq_3 cfg fuel _ ⟨pid, t, p⟩ [] passes rfl]
  simp [minDue]

theorem run_pending_nil (cfg : Config) (passes fuel : Nat) (tl : Timeline T)
    (c : Nat) (E : List SchedErr) (R : List (Rec T)) :
    run cfg passes fuel ⟨tl, [], c, E, R⟩ = .finished tl E R :=
  run.eq_1 cfg fuel _ passes rfl

theorem run_repeatZero (cfg : Config) :
    ∀ (n : Nat) (pid : Nat) (t : T) (tl : Timeline T) (c : Nat)
      (E : List SchedErr) (R : List (Rec T)),
      ∃ tr2 : List (Rec T),
        run cfg (n + 1) 1 ⟨tl, [⟨pid, t, repeatZero n⟩], c, E, R⟩ =
          .finished { tl with now := t } E (R ++ tr2) ∧
        tr2.length = n + 1 ∧
        ∀ r ∈ tr2, r.pid = pid ∧ r.time = t := by
  intro n
  induction n with
  | zero =>
    intro pid t tl c E R
    refine ⟨[⟨pid, t, t, tl.seqCount, tl.seqCount, []⟩], ?_, rfl, ?_⟩
    · rw [run_single_step]
      simp only [runPass, stepOne, repeatZero, Process.resume,
        Timeline.appendAll, List.foldl_nil, List.nil_append, List.append_nil,
        mergeEnts, Option.toList, Bool.false_eq_true, if_false]
      exact run_pending_nil cfg 0 1 _ c E _
    · intro r hr
      rcases List.mem_singleton.1 hr with rfl
      exact ⟨rfl, rfl⟩
  | succ n ih =>
    intro pid t tl c E R
    obtain ⟨tr2, heq, hlen, hall⟩ :=
      ih pid (t + 0) { tl with now := t } c E
        (R ++ [⟨pid, t, t, tl.seqCount, tl.seqCount, []⟩])
    refine ⟨⟨pid, t, t, tl.seqCount, tl.seqCount, []⟩ :: tr2, ?_, ?_, ?_⟩
    · rw [run_single_step]
      simp only [runPass, stepOne, repeatZero, Process.resume,
        Timeline.appendAll, List.foldl_nil, List.foldl_cons, List.nil_append,
        List.append_nil, mergeEnts, insertEnt, Option.toList, lt_irrefl,
        Bool.false_eq_true, if_false]
      rw [heq]
      simp
    · simp [hlen]
    · intro r hr
      rcases List.mem_cons.1 hr with rfl | hr
      · exact ⟨rfl, rfl⟩
      · obtain ⟨h1, h2⟩ := hall r hr
        rw [add_zero] at h2
        exact ⟨h1, h2⟩

/-! ### Claim theorems for the scheduler core -/

/-- C1: for every run of the Scheduler over any valid forest of processes,
when the Timeline event store is read back after the Scheduler reaches its
terminal state, the events are in nondecreasing time order, with events of
equal time in their insertion order (stable ties, witnessed by the
insertion sequence numbers), even though individual processes may append
events out of time order. -/
theorem run_timeline_sorted_stable (cfg : Config) (passes fuel : Nat)
    (roots : List (Process T)) {tl : Timeline T} {es : List SchedErr}
    {tr : List (Rec T)}
    (h : run cfg passes fuel (initState roots) = .finished tl es tr) :
    tl.store.Pairwise lexLt ∧ ∀ e ∈ tl.store, e.seq < tl.seqCount := by
  refine (run_finished_wf cfg passes fuel (initState roots) h).1 ⟨?_, ?_⟩
  · simp [initState]
  · simp [initState]

/-- Witness for C1: a concrete two-root run (one process appends an event
one time unit in the past) reaches the terminal state, and its store is
sorted with stable ties. -/
theorem run_timeline_sorted_stable_witness :
    (run (⟨false⟩ : Config) 6 6 (initState [witA, witOut]) =
      RunResult.finished ⟨[⟨-1, 1, 1, 4⟩, ⟨0, 0, 0, 1⟩], 2, 0⟩ []
        [⟨0, 0, 0, 0, 1, []⟩, ⟨1, 0, 0, 1, 2, []⟩]) ∧
    ((⟨[⟨-1, 1, 1, 4⟩, ⟨0, 0, 0, 1⟩], 2, 0⟩ : Timeline Int).store.Pairwise
        lexLt ∧
      ∀ e ∈ (⟨[⟨-1, 1, 1, 4⟩, ⟨0, 0, 0, 1⟩], 2, 0⟩ : Timeline Int).store,
        e.seq < (⟨[⟨-1, 1, 1, 4⟩, ⟨0, 0, 0, 1⟩], 2, 0⟩ :
          Timeline Int).seqCount) := by
  have h : run (⟨false⟩ : Config) 6 6 (initState [witA, witOut]) =
      RunResult.finished ⟨[⟨-1, 1, 1, 4⟩, ⟨0, 0, 0, 1⟩], 2, 0⟩ []
        [⟨0, 0, 0, 0, 1, []⟩, ⟨1, 0, 0, 1, 2, []⟩] := by decide
  exact ⟨h, run_timeline_sorted_stable ⟨false⟩ 6 6 [witA, witOut] h⟩

/-- C2: within one completed ready pass, processes are resumed in
submission order (trace ids strictly increase, so a process submitted
earlier is resumed earlier), the events of an earlier resumption receive
strictly smaller insertion sequence numbers than those of a later one, and
in the resulting store any two equal-time events appear in insertion
order; every new event is tied to the resumption record that appended
it. -/
theorem pass_tiebreak_order (cfg : Config) (fuel : Nat) (t : T)
    (queue : List (Nat × Process T)) (tl : Timeline T) (c : Nat)
    {tl2 : Timeline T} {rs : List (Ent T)} {c2 : Nat} {es : List SchedErr}
    {tr : List (Rec T)}
    (h : runPass cfg fuel t queue tl c = .completed tl2 rs c2 es tr)
    (hq : (queue.map Prod.fst).Pairwise (· < ·))
    (hbound : ∀ x ∈ queue, x.1 < c) (hwf : WFtl tl) :
    tr.Pairwise (fun a b => a.pid < b.pid) ∧
    tr.Pairwise (fun a b => a.seqEnd ≤ b.seqStart) ∧
    tl2.store.Pairwise (fun a b => a.time = b.time → a.seq < b.seq) ∧
    (∀ e ∈ tl2.store, e ∈ tl.store ∨
      ∃ r ∈ tr, r.pid = e.pid ∧ r.seqStart ≤ e.seq ∧ e.seq < r.seqEnd) := by
  obtain ⟨_, _, _, _, hW, _, hpw, hev⟩ :=
    runPass_completed_basic cfg fuel t queue tl c h
  obtain ⟨_, hpid, _, _⟩ :=
    runPass_completed_pids cfg fuel t queue tl c h hq hbound
  refine ⟨hpid, hpw, ?_, hev⟩
  exact List.Pairwise.imp
    (fun hab heq => hab.elim
      (fun hlt => absurd (heq ▸ hlt) (lt_irrefl _)) And.right)
    (hW hwf).1

/-- Witness for C2: two processes both ready at t = 0, submitted in order
A then B, complete a pass in which A is resumed first and its event gets
the smaller sequence number. -/
theorem pass_tiebreak_order_witness :
    (runPass (⟨false⟩ : Config) 5 (0 : Int) [(0, witA), (1, witB)] tl0 2 =
      PassResult.completed ⟨[⟨0, 0, 0, 1⟩, ⟨0, 1, 1, 2⟩], 2, 0⟩ [] 2 []
        [⟨0, 0, 0, 0, 1, []⟩, ⟨1, 0, 0, 1, 2, []⟩]) ∧
    (([(0, witA), (1, witB)].map Prod.fst).Pairwise (· < ·) ∧
      (∀ x ∈ [(0, witA), (1, witB)], x.1 < 2) ∧ WFtl tl0) ∧
    ([⟨0, 0, 0, 0, 1, []⟩, ⟨1, 0, 0, 1, 2, []⟩] :
        List (Rec Int)).Pairwise (fun a b => a.pid < b.pid) := by
  have h : runPass (⟨false⟩ : Config) 5 (0 : Int) [(0, witA), (1, witB)] tl0 2 =
      PassResult.completed ⟨[⟨0, 0, 0, 1⟩, ⟨0, 1, 1, 2⟩], 2, 0⟩ [] 2 []
        [⟨0, 0, 0, 0, 1, []⟩, ⟨1, 0, 0, 1, 2, []⟩] := rfl
  exact ⟨h, ⟨by decide, by decide, by simp [WFtl, tl0]⟩,
    (pass_tiebreak_order ⟨false⟩ 5 0 [(0, witA), (1, witB)] tl0 2 h
      (by decide) (by decide) (by simp [WFtl, tl0])).1⟩

/-- C3: in a completed ready pass at time t, every resumption (children
included) occurs at time t; ids increase along the trace; and every child
spawned during the pass has an id larger than its parent and than every
process queued at pass start, and is itself resumed within the same pass
at time t — so a freshly spawned child first resumes at the time it was
spawned, after its parent and after all already-queued ready processes. -/
theorem pass_spawn_immediacy (cfg : Config) (fuel : Nat) (t : T)
    (queue : List (Nat × Process T)) (tl : Timeline T) (c : Nat)
    {tl2 : Timeline T} {rs : List (Ent T)} {c2 : Nat} {es : List SchedErr}
    {tr : List (Rec T)}
    (h : runPass cfg fuel t queue tl c = .completed tl2 rs c2 es tr)
    (hq : (queue.map Prod.fst).Pairwise (· < ·))
    (hbound : ∀ x ∈ queue, x.1 < c) :
    (∀ r ∈ tr, r.time = t) ∧
    tr.Pairwise (fun a b => a.pid < b.pid) ∧
    (∀ r ∈ tr, ∀ a ∈ r.spawned,
      (∀ x ∈ queue, x.1 < a) ∧ r.pid < a ∧
      ∃ r2 ∈ tr, r2.pid = a ∧ r2.time = t) := by
  obtain ⟨_, _, _, _, _, hrecs, _, _⟩ :=
    runPass_completed_basic cfg fuel t queue tl c h
  obtain ⟨_, hpid, _, hsp⟩ :=
    runPass_completed_pids cfg fuel t queue tl c h hq hbound
  refine ⟨fun r hr => (hrecs r hr).1, hpid, ?_⟩
  intro r hr a ha
  obtain ⟨hca, hra, r2, hr2, hr2a⟩ := hsp r hr a ha
  exact ⟨fun x hx => lt_of_lt_of_le (hbound x hx) hca, hra,
    r2, hr2, hr2a, (hrecs r2 hr2).1⟩

/-- Witness for C3: a process resuming at t = 5 spawns one child; the
completed pass resumes the child at t = 5, after the parent. -/
theorem pass_spawn_immediacy_witness :
    (runPass (⟨false⟩ : Config) 5 (5 : Int) [(0, witSpawner)] ⟨[], 0, 5⟩ 1 =
      PassResult.completed ⟨[⟨5, 0, 0, 5⟩, ⟨5, 1, 1, 1⟩], 2, 5⟩
        [⟨0, 6, .mk fun _ => .done []⟩] 2 []
        [⟨0, 5, 5, 0, 1, [1]⟩, ⟨1, 5, 5, 1, 2, []⟩]) ∧
    (∀ r ∈ ([⟨0, 5, 5, 0, 1, [1]⟩, ⟨1, 5, 5, 1, 2, []⟩] : List (Rec Int)),
      r.time = 5) := by
  have h : runPass (⟨false⟩ : Config) 5 (5 : Int) [(0, witSpawner)]
      ⟨[], 0, 5⟩ 1 =
      PassResult.completed ⟨[⟨5, 0, 0, 5⟩, ⟨5, 1, 1, 1⟩], 2, 5⟩
        [⟨0, 6, .mk fun _ => .done []⟩] 2 []
        [⟨0, 5, 5, 0, 1, [1]⟩, ⟨1, 5, 5, 1, 2, []⟩] := rfl
  exact ⟨h, (pass_spawn_immediacy ⟨false⟩ 5 5 [(0, witSpawner)] ⟨[], 0, 5⟩ 1 h
    (by decide) (by decide)).1⟩

/-- C4: a process returning Continue(0) is rescheduled at the same
simulated time, into the pending set rather than the current ready queue
(so the full ready pass over the other same-instant processes completes
first, and a zero wait never prevents them from running: in a completed
pass every queued process is resumed); and for every n the process that
returns Continue(0) n times runs exactly n + 1 times at one instant and
the scheduler still reaches its terminal state — repeated zero-wait
resumptions are legal and do not make the ready pass loop forever. -/
theorem zero_wait_progress (cfg : Config) :
    (∀ (t : T) (pid : Nat) (p : Process T) (tl : Timeline T) (c : Nat)
        (evs : List (RawEvent T)) (next : Process T),
        p.resume tl.now = .cont evs 0 next →
        (stepOne cfg t pid p tl c).resub = some ⟨pid, t, next⟩ ∧
        (stepOne cfg t pid p tl c).newProcs = [] ∧
        (stepOne cfg t pid p tl c).abort = false) ∧
    (∀ (fuel : Nat) (t : T) (queue : List (Nat × Process T))
        (tl : Timeline T) (c : Nat) (tl2 : Timeline T) (rs : List (Ent T))
        (c2 : Nat) (es : List SchedErr) (tr : List (Rec T)),
        runPass cfg fuel t queue tl c = .completed tl2 rs c2 es tr →
        (queue.map Prod.fst).Pairwise (· < ·) → (∀ x ∈ queue, x.1 < c) →
        ∀ x ∈ queue, ∃ r ∈ tr, r.pid = x.1) ∧
    (∀ (n pid : Nat) (t : T) (tl : Timeline T) (c : Nat)
        (E : List SchedErr) (R : List (Rec T)),
        ∃ tr2 : List (Rec T),
          run cfg (n + 1) 1 ⟨tl, [⟨pid, t, repeatZero n⟩], c, E, R⟩ =
            .finished { tl with now := t } E (R ++ tr2) ∧
          tr2.length = n + 1 ∧ ∀ r ∈ tr2, r.pid = pid ∧ r.time = t) := by
  refine ⟨?_, ?_, run_repeatZero cfg⟩
  · intro t pid p tl c evs next hres
    simp only [stepOne, hres, lt_irrefl, if_false, add_zero]
    exact ⟨trivial, trivial, trivial⟩
  · intro fuel t queue tl c tl2 rs c2 es tr h hq hb
    exact (runPass_completed_pids cfg fuel t queue tl c h hq hb).2.2.1

/-- Witness for C4: a concrete zero-wait resumption is rescheduled at the
same time without joining the current queue, and the process returning
Continue(0) twice finishes after exactly three same-instant resumptions. -/
theorem zero_wait_progress_witness :
    ((stepOne (⟨false⟩ : Config) (0 : Int) 0 witZero tl0 1).resub =
        some ⟨0, 0, witA⟩ ∧
      (stepOne (⟨false⟩ : Config) (0 : Int) 0 witZero tl0 1).newProcs = [] ∧
      (stepOne (⟨false⟩ : Config) (0 : Int) 0 witZero tl0 1).abort = false) ∧
    (∃ tr2 : List (Rec Int),
      run (⟨false⟩ : Config) (2 + 1) 1 ⟨tl0, [⟨0, 0, repeatZero 2⟩], 1, [], []⟩ =
        .finished { tl0 with now := 0 } [] ([] ++ tr2) ∧
      tr2.length = 2 + 1 ∧ ∀ r ∈ tr2, r.pid = 0 ∧ r.time = 0) :=
  ⟨(@zero_wait_progress Int _ ⟨false⟩).1 0 0 witZero tl0 1 [] witA rfl,
   (@zero_wait_progress Int _ ⟨false⟩).2.2 2 0 0 tl0 1 [] []⟩

/-- C5: in the default (isolate-and-continue) configuration a raised
resumption error never aborts the whole run — the scheduler treats the
failing process exactly as if it had returned Done with the same appended
events, except that a ProcessFailure naming the process is reported, and
it continues running every other process; the whole run is aborted only in
the fail-fast (strict) configuration. -/
theorem failure_isolation (cfg : Config) :
    (cfg.strict = false →
      (∀ (passes fuel : Nat) (st : SchedState T),
        (run cfg passes fuel st).isAborted = false) ∧
      (∀ (t : T) (pid : Nat) (p : Process T) (tl : Timeline T) (c : Nat)
          (evs : List (RawEvent T)),
          p.resume tl.now = .fail evs →
          stepOne cfg t pid p tl c =
            { stepOne cfg t pid (.mk fun _ => .done evs) tl c with
                errors := [.processFailure pid] })) ∧
    (cfg.strict = true →
      ∀ (t : T) (pid : Nat) (p : Process T) (tl : Timeline T) (c : Nat)
        (evs : List (RawEvent T)),
        p.resume tl.now = .fail evs →
        (stepOne cfg t pid p tl c).abort = true) := by
  constructor
  · intro hs
    constructor
    · intro passes fuel st
      exact run_default_not_aborted cfg passes fuel st hs
    · intro t pid p tl c evs hres
      have hres2 : (Process.mk fun _ => Resumption.done evs :
          Process T).resume tl.now = Resumption.done evs := rfl
      simp only [stepOne, hres, hres2, hs]
  · intro hs t pid p tl c evs hres
    simp only [stepOne, hres, hs]

/-- Witness for C5: a concrete default-mode run with a failing process
does not abort; the failing resumption is handled exactly as the Done
version plus the error report; in strict mode the same failure aborts. -/
theorem failure_isolation_witness :
    ((run (⟨false⟩ : Config) 5 5 (initState [witFailer, witB])).isAborted =
        false) ∧
    (stepOne (⟨false⟩ : Config) (0 : Int) 0 witFailer tl0 2 =
      { stepOne (⟨false⟩ : Config) (0 : Int) 0
          (.mk fun _ => .done [⟨3, 9⟩]) tl0 2 with
          errors := [.processFailure 0] }) ∧
    (stepOne (⟨true⟩ : Config) (0 : Int) 0 witFailer tl0 2).abort = true :=
  ⟨((@failure_isolation Int _ ⟨false⟩).1 rfl).1 5 5
      (initState [witFailer, witB]),
   ((@failure_isolation Int _ ⟨false⟩).1 rfl).2 0 0 witFailer tl0 2
      [⟨3, 9⟩] rfl,
   (@failure_isolation Int _ ⟨true⟩).2 rfl 0 0 witFailer tl0 2
      [⟨3, 9⟩] rfl⟩

/-- C6: a resumption yielding a negative wait is a fatal authoring error:
in the default configuration the scheduler reports NegativeWait naming the
offending process, aborts only that process (it is not rescheduled and
spawns nothing, but the run is not aborted), and the Timeline is changed
only by the events that resumption had already appended — all previously
appended events remain intact and the store stays in nondecreasing
time-then-insertion order. -/
theorem negative_wait_fatal (cfg : Config) (t : T) (pid : Nat)
    (p : Process T) (tl : Timeline T) (c : Nat) (evs : List (RawEvent T))
    (w : T) (next : Process T) (hres : p.resume tl.now = .cont evs w next)
    (hneg : w < 0) (hdef : cfg.strict = false) :
    (stepOne cfg t pid p tl c).errors = [.negativeWait pid] ∧
    (stepOne cfg t pid p tl c).resub = none ∧
    (stepOne cfg t pid p tl c).newProcs = [] ∧
    (stepOne cfg t pid p tl c).abort = false ∧
    (stepOne cfg t pid p tl c).counter = c ∧
    (stepOne cfg t pid p tl c).timeline = tl.appendAll pid evs ∧
    tl.store.Sublist (stepOne cfg t pid p tl c).timeline.store ∧
    (WFtl tl → WFtl (stepOne cfg t pid p tl c).timeline) := by
  simp only [stepOne, hres, if_pos hneg, hdef]
  exact ⟨trivial, trivial, trivial, trivial, trivial, trivial,
    appendAll_sublist tl pid evs, fun hW => appendAll_WF hW⟩

/-- Witness for C6: a concrete process returning Continue(-1) is reported
as NegativeWait and dropped, without aborting the run. -/
theorem negative_wait_fatal_witness :
    ((-1 : Int) < 0) ∧
    (stepOne (⟨false⟩ : Config) (0 : Int) 0 witNeg tl0 1).errors =
      [.negativeWait 0] ∧
    (stepOne (⟨false⟩ : Config) (0 : Int) 0 witNeg tl0 1).resub = none ∧
    (stepOne (⟨false⟩ : Config) (0 : Int) 0 witNeg tl0 1).abort = false :=
  ⟨by decide,
   (negative_wait_fatal ⟨false⟩ 0 0 witNeg tl0 1 [] (-1)
      (.mk fun _ => .done []) rfl (by decide) rfl).1,
   (negative_wait_fatal ⟨false⟩ 0 0 witNeg tl0 1 [] (-1)
      (.mk fun _ => .done []) rfl (by decide) rfl).2.1,
   (negative_wait_fatal ⟨false⟩ 0 0 witNeg tl0 1 [] (-1)
      (.mk fun _ => .done []) rfl (by decide) rfl).2.2.2.1⟩

/-- C7: a resumption outcome is a deterministic function of the process
internal state and the invocation time — two processes whose resume agrees
at the invocation time are handled identically by the scheduler — and its
side effects are limited to Timeline appends (the old store is a sublist
of the new one, the cursor is untouched, and every new event is stamped
with the resuming process id and a fresh sequence number) and the
creation of new processes. -/
theorem resumption_determinism_frame (cfg : Config) (t : T) (pid : Nat)
    (tl : Timeline T) (c : Nat) :
    (∀ p q : Process T, p.resume tl.now = q.resume tl.now →
      stepOne cfg t pid p tl c = stepOne cfg t pid q tl c) ∧
    (∀ p : Process T,
      tl.store.Sublist (stepOne cfg t pid p tl c).timeline.store ∧
      (stepOne cfg t pid p tl c).timeline.now = tl.now ∧
      ∀ e ∈ (stepOne cfg t pid p tl c).timeline.store,
        e ∈ tl.store ∨ (e.pid = pid ∧ tl.seqCount ≤ e.seq)) := by
  constructor
  · intro p q hres
    simp only [stepOne, hres]
  · intro p
    have htl := stepOne_timeline cfg t pid p tl c
    refine ⟨?_, ?_, ?_⟩
    · rw [htl]
      exact appendAll_sublist tl pid _
    · rw [htl]
      exact appendAll_now tl pid _
    · intro e he
      rw [htl] at he
      rcases mem_appendAll_store he with h2 | ⟨h1, h2, _⟩
      · exact Or.inl h2
      · exact Or.inr ⟨h1, h2⟩

/-- Witness for C7: two syntactically different processes with the same
resumption behavior at the invocation time are handled identically, and
the frame condition holds at a concrete resumption. -/
theorem resumption_determinism_frame_witness :
    (stepOne (⟨false⟩ : Config) (0 : Int) 0 witA tl0 1 =
      stepOne (⟨false⟩ : Config) (0 : Int) 0
        (.mk fun now => .done [⟨now, 1⟩]) tl0 1) ∧
    (tl0.store.Sublist
        (stepOne (⟨false⟩ : Config) (0 : Int) 0 witB tl0 1).timeline.store ∧
      (stepOne (⟨false⟩ : Config) (0 : Int) 0 witB tl0 1).timeline.now =
        tl0.now ∧
      ∀ e ∈ (stepOne (⟨false⟩ : Config) (0 : Int) 0 witB tl0 1).timeline.store,
        e ∈ tl0.store ∨ (e.pid = 0 ∧ tl0.seqCount ≤ e.seq)) :=
  ⟨(resumption_determinism_frame ⟨false⟩ 0 0 tl0 1).1 witA
      (.mk fun now => .done [⟨now, 1⟩]) rfl,
   (resumption_determinism_frame ⟨false⟩ 0 0 tl0 1).2 witB⟩

/-- C8: the Timeline elapsed query equals the current time minus the
supplied origin time, and for every terminal run the current-time cursor
read by each resumption equals the time at which the scheduler invoked
that resumption — the quantity a process such as register of
demos/continuum.py compares against its target duration. -/
theorem elapsed_since_spec (cfg : Config) (passes fuel : Nat)
    (roots : List (Process T)) {tl : Timeline T} {es : List SchedErr}
    {tr : List (Rec T)}
    (h : run cfg passes fuel (initState roots) = .finished tl es tr) :
    (∀ (tlq : Timeline T) (origin : T),
        tlq.elapsedSince origin = tlq.now - origin) ∧
    ∀ r ∈ tr, r.now = r.time := by
  refine ⟨fun tlq origin => rfl, ?_⟩
  refine (run_finished_wf cfg passes fuel (initState roots) h).2 ?_
  intro r hr
  simp [initState] at hr

/-- Witness for C8: a concrete terminal run in which the recorded cursor
of every resumption equals its invocation time. -/
theorem elapsed_since_spec_witness :
    (run (⟨false⟩ : Config) 5 5 (initState [witB]) =
      RunResult.finished ⟨[⟨0, 0, 0, 2⟩], 1, 0⟩ [] [⟨0, 0, 0, 0, 1, []⟩]) ∧
    ((∀ (tlq : Timeline Int) (origin : Int),
        tlq.elapsedSince origin = tlq.now - origin) ∧
      ∀ r ∈ ([⟨0, 0, 0, 0, 1, []⟩] : List (Rec Int)), r.now = r.time) := by
  have h : run (⟨false⟩ : Config) 5 5 (initState [witB]) =
      RunResult.finished ⟨[⟨0, 0, 0, 2⟩], 1, 0⟩ [] [⟨0, 0, 0, 0, 1, []⟩] := by
    decide
  exact ⟨h, elapsed_since_spec ⟨false⟩ 5 5 [witB] h⟩

end Scheduler

end Musx
